import Mathlib

/-!
Verification of the FlowLeaf canvas-aspect store.

The only executable source in the repository is
`src/planner/src/app/root-store/canvas-aspect-store/selectors.ts`: three
ngrx selectors over a feature state holding an entity-adapter collection
(`ids` in insertion order, a dictionary `entities`) plus an `addedIds`
array tracking aspects awaiting server confirmation (the spec's
PendingSet).  The selectors are embedded below directly from that file.
The reconciliation engine described by the spec (Ack / Reject /
RemoteChange processing) has no source under `src/`; it is modelled from
the spec's words further down, and the definitions say so.
-/

/-- A canvas aspect.  `id` is the (tentative or canonical) identity,
`revision` is the backend-assigned version marker — absent (`none`) on
tentative, unconfirmed aspects — and `payload` stands for the
domain-specific attributes, opaque to the sync engine. -/
structure CanvasAspect where
  id : String
  revision : Option Nat
  payload : String
deriving DecidableEq, Repr

/-- Dictionary lookup, the embedding of the JavaScript expression
`entities[id]`: `none` models `undefined`. -/
def lookupId (id : String) : List (String × CanvasAspect) → Option CanvasAspect
  | [] => none
  | p :: rest => if p.1 = id then some p.2 else lookupId id rest

/-- The ngrx feature state of the canvas-aspect store: the entity
adapter's `ids` (insertion order) and `entities` dictionary, plus the
`addedIds` array read by `selectAddedCanvasAspects`. -/
structure State where
  ids : List String
  entities : List (String × CanvasAspect)
  addedIds : List String
deriving DecidableEq, Repr

/-- `selectAllCanvasAspectItems`: the entity adapter's `selectAll`,
i.e. `state.ids.map(id => state.entities[id])`.  Elements are `Option`
because the dictionary access can yield `undefined`. -/
def selectAllCanvasAspectItems (s : State) : List (Option CanvasAspect) :=
  s.ids.map (fun i => lookupId i s.entities)

/-- A JavaScript result that can be a proper value, `undefined`, or
`null` — the three outcomes of `selectCanvasAspectById`. -/
inductive JSVal (α : Type) where
  | value (a : α)
  | undef
  | jsNull
deriving DecidableEq, Repr

/-- `selectCanvasAspectById(id)`'s projector: given the all-aspects
array (or `null`/`undefined`, modelled by `none`), return
`allCanvasAspects.find(p => p.id === id)` when the array is truthy and
`null` otherwise.  `Array.find` yields `undefined` on no match. -/
def selectCanvasAspectById (id : String) :
    Option (List CanvasAspect) → JSVal CanvasAspect
  | some l =>
    match l.find? (fun p => p.id = id) with
    | some a => JSVal.value a
    | none => JSVal.undef
  | none => JSVal.jsNull

/-- `selectAddedCanvasAspects`:
`state.addedIds.map(id => state.entities[id])`. -/
def selectAddedCanvasAspects (s : State) : List (Option CanvasAspect) :=
  s.addedIds.map (fun i => lookupId i s.entities)

/-- The "pending aspects" view in the spec's words: the subsequence of
the all-aspects view (ids in insertion order) consisting of the aspects
whose id is a member of PendingSet (`addedIds`), in all-aspects order.
Used only to compare against `selectAddedCanvasAspects`. -/
def pendingAspectsSpec (s : State) : List (Option CanvasAspect) :=
  (s.ids.filter (fun i => i ∈ s.addedIds)).map (fun i => lookupId i s.entities)

/-- Well-formedness of the entity-adapter state, which ngrx maintains:
every id in the order array has an entity, and every dictionary entry is
keyed by its aspect's own id. -/
def WF (s : State) : Prop :=
  (∀ i ∈ s.ids, (lookupId i s.entities).isSome) ∧
  (∀ p ∈ s.entities, p.2.id = p.1)

instance (s : State) : Decidable (WF s) := by
  unfold WF; infer_instance

/-! ## The reconciliation engine, modelled from the spec

The engine itself (EntityStore mutations, PendingSet maintenance, and
the Ack / Reject / RemoteChange protocol of spec section 4.2) has no
source under `src/`; only the selectors that read its state do.  The
definitions in this section are therefore modelled from the spec. -/

/-- Replace every entry keyed `c` in an entity dictionary by the entry
`(k, a)`; used both for in-place replacement (`c = k`) and for the
rekeying an Ack performs (`c` the tentative id, `k` the canonical). -/
def replaceEntry (c k : String) (a : CanvasAspect) :
    List (String × CanvasAspect) → List (String × CanvasAspect) :=
  List.map (fun p => if p.1 = c then (k, a) else p)

/-- Modelled from the spec: `upsert(aspect)` of EntityStore (spec 4.1)
— "inserts if id absent (appended to order), replaces in place if id
present (order preserved)". -/
def upsertAspect (a : CanvasAspect) (s : State) : State :=
  if (lookupId a.id s.entities).isSome then
    { s with entities := replaceEntry a.id a.id a s.entities }
  else
    { s with ids := s.ids ++ [a.id], entities := (a.id, a) :: s.entities }

/-- Modelled from the spec: `remove(id)` of EntityStore (spec 4.1) —
idempotent removal from both the order array and the dictionary. -/
def removeAspect (i : String) (s : State) : State :=
  { s with ids := s.ids.filter (fun j => j ≠ i),
           entities := s.entities.filter (fun p => p.1 ≠ i) }

/-- Add an id to PendingSet (no duplicates). -/
def addPending (i : String) (l : List String) : List String :=
  if i ∈ l then l else l ++ [i]

/-- Drop an id from PendingSet. -/
def dropPending (i : String) (l : List String) : List String :=
  l.filter (fun j => j ≠ i)

/-- Upsert into the confirmed-base dictionary kept for pending-edited
ids (spec 4.2, RemoteChange while a local edit is pending). -/
def baseUpsert (a : CanvasAspect) (b : List (String × CanvasAspect)) :
    List (String × CanvasAspect) :=
  if (lookupId a.id b).isSome then replaceEntry a.id a.id a b else (a.id, a) :: b

/-- Remove an id from the confirmed-base dictionary. -/
def baseRemove (i : String) (b : List (String × CanvasAspect)) :
    List (String × CanvasAspect) :=
  b.filter (fun p => p.1 ≠ i)

/-- Modelled from the spec: last-writer-wins gate (spec 4.2) — a remote
revision is applied iff it is strictly greater than the locally stored
revision, or there is no locally stored revision for the id. -/
def newerThan (incoming stored : Option Nat) : Bool :=
  match stored with
  | none => true
  | some rs =>
    match incoming with
    | none => false
    | some r => rs < r

/-- Modelled from the spec: the client session — the ngrx store state
(EntityStore `ids`/`entities` plus PendingSet `addedIds`) together with
the confirmed-base dictionary the engine retains for ids that have a
pending local edit raced by a RemoteChange (spec 4.2). -/
structure Session where
  store : State
  base : List (String × CanvasAspect)
deriving DecidableEq, Repr

/-- Modelled from the spec: the events the session reacts to — the
local mutations of the lifecycle (spec 3) and the three server event
kinds consumed from SyncChannel (spec 4.2); a RemoteChange is split
into its upsert and its deletion shape (spec 6). -/
inductive Event where
  | localCreate (tmpId : String) (payload : String)
  | localDelete (id : String)
  | ack (corrId : String) (canonical : CanvasAspect)
  | reject (corrId : String)
  | remoteUpsert (a : CanvasAspect)
  | remoteDelete (id : String)
deriving DecidableEq, Repr

/-- Modelled from the spec: one step of the reconciliation engine
(spec 3 lifecycle and 4.2).
* `localCreate`: insert the tentative aspect (no revision yet), add its
  id to PendingSet.
* `localDelete`: remove the id from EntityStore and PendingSet
  unconditionally (lifecycle step 5).
* `ack`: if the local entry still exists, rekey/replace it with the
  canonical aspect; drop the correlation id from PendingSet either way.
* `reject`: drop the correlation id from PendingSet; roll a tentative
  create back (delete it); for an update, revert to the last-known
  confirmed base when one was retained, otherwise keep the store.
* `remoteUpsert`: if the id has a pending local edit, apply the change
  only to the confirmed base and keep the pending edit visible;
  otherwise apply it iff it wins last-writer-wins by revision.
* `remoteDelete`: if the id has a pending local edit, drop only the
  confirmed base; otherwise remove the id from EntityStore. -/
def applyEvent (e : Event) (s : Session) : Session :=
  match e with
  | .localCreate t p =>
    let st := upsertAspect ⟨t, none, p⟩ s.store
    { s with store := { st with addedIds := addPending t st.addedIds } }
  | .localDelete i =>
    let st := removeAspect i s.store
    { store := { st with addedIds := dropPending i st.addedIds },
      base := baseRemove i s.base }
  | .ack c a =>
    if (lookupId c s.store.entities).isSome then
      { store := { ids := s.store.ids.map (fun i => if i = c then a.id else i),
                   entities := replaceEntry c a.id a s.store.entities,
                   addedIds := dropPending c s.store.addedIds },
        base := baseRemove c s.base }
    else
      { store := { s.store with addedIds := dropPending c s.store.addedIds },
        base := baseRemove c s.base }
  | .reject c =>
    match lookupId c s.store.entities with
    | some cur =>
      if cur.revision = none then
        let st := removeAspect c s.store
        { store := { st with addedIds := dropPending c st.addedIds },
          base := baseRemove c s.base }
      else
        match lookupId c s.base with
        | some b =>
          { store :=
              { s.store with
                entities := replaceEntry c c b s.store.entities,
                addedIds := dropPending c s.store.addedIds },
            base := baseRemove c s.base }
        | none =>
          { s with store := { s.store with addedIds := dropPending c s.store.addedIds } }
    | none =>
      { store := { s.store with addedIds := dropPending c s.store.addedIds },
        base := baseRemove c s.base }
  | .remoteUpsert a =>
    if a.id ∈ s.store.addedIds then
      { s with base := baseUpsert a s.base }
    else
      if newerThan a.revision ((lookupId a.id s.store.entities).bind CanvasAspect.revision) then
        { s with store := upsertAspect a s.store }
      else s
  | .remoteDelete i =>
    if i ∈ s.store.addedIds then
      { s with base := baseRemove i s.base }
    else
      { s with store := removeAspect i s.store }

/-- Run a finite event sequence through the engine. -/
def runEvents (evs : List Event) (s : Session) : Session :=
  evs.foldl (fun s e => applyEvent e s) s


/-! ## Dictionary lemmas -/

theorem lookupId_isSome_iff (j : String) (l : List (String × CanvasAspect)) :
    (lookupId j l).isSome ↔ j ∈ l.map Prod.fst := by
  induction l with
  | nil => simp [lookupId]
  | cons p rest ih =>
    simp only [lookupId, List.map_cons, List.mem_cons]
    by_cases h : p.1 = j
    · simp [h]
    · have h2 : ¬ j = p.1 := fun hh => h hh.symm
      simp [h, h2, ih]

theorem lookupId_mem {j : String} {l : List (String × CanvasAspect)} {a : CanvasAspect}
    (h : lookupId j l = some a) : (j, a) ∈ l := by
  induction l with
  | nil => simp [lookupId] at h
  | cons p rest ih =>
    simp only [lookupId] at h
    by_cases hp : p.1 = j
    · rw [if_pos hp] at h
      injection h with h2
      subst hp
      subst h2
      exact List.mem_cons.mpr (Or.inl Prod.mk.eta.symm)
    · rw [if_neg hp] at h
      exact List.mem_cons_of_mem _ (ih h)

theorem lookupId_filter_ne {x c : String} (l : List (String × CanvasAspect))
    (hx : x ≠ c) :
    lookupId x (l.filter (fun p => p.1 ≠ c)) = lookupId x l := by
  induction l with
  | nil => rfl
  | cons p rest ih =>
    by_cases hp : p.1 = c
    · have hcx : ¬ c = x := fun hh => hx hh.symm
      simp at ih
      simp [List.filter_cons, lookupId, hp, hcx, ih]
    · by_cases h3 : p.1 = x
      · simp [List.filter_cons, lookupId, hp, h3, hx]
      · simp at ih
        simp [List.filter_cons, lookupId, hp, h3, ih]

theorem lookupId_replaceEntry_other {x c k : String} (a : CanvasAspect)
    (l : List (String × CanvasAspect)) (hc : x ≠ c) (hk : x ≠ k) :
    lookupId x (replaceEntry c k a l) = lookupId x l := by
  induction l with
  | nil => rfl
  | cons p rest ih =>
    have hcx : ¬ c = x := fun hh => hc hh.symm
    have hkx : ¬ k = x := fun hh => hk hh.symm
    by_cases hp : p.1 = c
    · simp [replaceEntry, lookupId, hp, hcx, hkx] at ih ⊢
      exact ih
    · by_cases h3 : p.1 = x
      · simp [replaceEntry, lookupId, hp, h3, hc]
      · simp [replaceEntry, lookupId, hp, h3] at ih ⊢
        exact ih

theorem lookupId_replaceEntry_same {c : String} (a : CanvasAspect)
    {l : List (String × CanvasAspect)} (h : (lookupId c l).isSome) :
    lookupId c (replaceEntry c c a l) = some a := by
  induction l with
  | nil => simp [lookupId] at h
  | cons p rest ih =>
    by_cases hp : p.1 = c
    · simp [replaceEntry, lookupId, hp]
    · simp only [lookupId, if_neg hp] at h
      simp [replaceEntry, lookupId, hp] at ih ⊢
      exact ih h

theorem lookupId_replaceEntry_rekey {c k : String} (a : CanvasAspect)
    {l : List (String × CanvasAspect)} (h : (lookupId c l).isSome) :
    (lookupId k (replaceEntry c k a l)).isSome := by
  induction l with
  | nil => simp [lookupId] at h
  | cons p rest ih =>
    by_cases hp : p.1 = c
    · simp [replaceEntry, lookupId, hp]
    · simp only [lookupId, if_neg hp] at h
      by_cases h3 : p.1 = k
      · by_cases hkc : k = c
        · exact absurd (h3.trans hkc) hp
        · simp [replaceEntry, lookupId, hp, h3, hkc]
      · simp [replaceEntry, lookupId, hp, h3] at ih ⊢
        exact ih h

theorem mem_replaceEntry {q : String × CanvasAspect} {c k : String} {a : CanvasAspect}
    {l : List (String × CanvasAspect)} (h : q ∈ replaceEntry c k a l) :
    q = (k, a) ∨ (q ∈ l ∧ q.1 ≠ c) := by
  simp only [replaceEntry, List.mem_map] at h
  obtain ⟨q0, hq0, hq⟩ := h
  by_cases hp : q0.1 = c
  · left
    rw [← hq, if_pos hp]
  · right
    rw [← hq, if_neg hp]
    exact ⟨hq0, hp⟩

theorem lookupId_upsert_other {x : String} {a : CanvasAspect} {st : State}
    (hx : x ≠ a.id) :
    lookupId x (upsertAspect a st).entities = lookupId x st.entities := by
  unfold upsertAspect
  split_ifs with h
  · exact lookupId_replaceEntry_other a st.entities hx hx
  · have h2 : ¬ a.id = x := fun hh => hx hh.symm
    simp [lookupId, h2]

theorem lookupId_upsert_self (a : CanvasAspect) (st : State) :
    lookupId a.id (upsertAspect a st).entities = some a := by
  unfold upsertAspect
  split_ifs with h
  · exact lookupId_replaceEntry_same a h
  · simp [lookupId]

theorem mem_upsert_entities {q : String × CanvasAspect} {a : CanvasAspect} {st : State}
    (h : q ∈ (upsertAspect a st).entities) :
    q = (a.id, a) ∨ (q ∈ st.entities ∧ q.1 ≠ a.id) := by
  unfold upsertAspect at h
  split_ifs at h with hs
  · exact mem_replaceEntry h
  · rcases List.mem_cons.mp h with h1 | h1
    · exact Or.inl h1
    · refine Or.inr ⟨h1, fun hq => ?_⟩
      rw [lookupId_isSome_iff] at hs
      exact hs (hq ▸ List.mem_map_of_mem Prod.fst h1)

theorem mem_ids_upsert_mono {i : String} {a : CanvasAspect} {st : State}
    (h : i ∈ st.ids) : i ∈ (upsertAspect a st).ids := by
  unfold upsertAspect
  split_ifs
  · exact h
  · exact List.mem_append_left _ h

theorem mem_ids_upsert_self {a : CanvasAspect} {st : State}
    (hc : ∀ q ∈ st.entities, q.1 ∈ st.ids) : a.id ∈ (upsertAspect a st).ids := by
  unfold upsertAspect
  split_ifs with h
  · rw [lookupId_isSome_iff] at h
    obtain ⟨q, hq, hq1⟩ := List.mem_map.mp h
    exact hq1 ▸ hc q hq
  · simp

/-! ## Selector-layer facts -/

theorem exists_aspects_of_wf (ents : List (String × CanvasAspect))
    (hwf : ∀ p ∈ ents, p.2.id = p.1) :
    ∀ ids : List String, (∀ i ∈ ids, (lookupId i ents).isSome) →
    ∃ l : List CanvasAspect, ids.map (fun i => lookupId i ents) = l.map some ∧
      l.map (fun a => a.id) = ids := by
  intro ids
  induction ids with
  | nil => exact fun _ => ⟨[], rfl, rfl⟩
  | cons i rest ih =>
    intro h
    obtain ⟨a, ha⟩ := Option.isSome_iff_exists.mp (h i (List.mem_cons_self i rest))
    obtain ⟨l, hl1, hl2⟩ := ih (fun j hj => h j (List.mem_cons_of_mem _ hj))
    refine ⟨a :: l, ?_, ?_⟩
    · simp [ha, hl1]
    · have hid : a.id = i := hwf (i, a) (lookupId_mem ha)
      simp [hid, hl2]

/-- The all-aspects array with the `Option` wrapper stripped; under the
adapter invariant this is exactly the array the selectors pass around. -/
def allAspects (s : State) : List CanvasAspect :=
  s.ids.filterMap (fun i => lookupId i s.entities)

theorem filterMap_eq_of_map_eq {α β : Type} {f : α → Option β} :
    ∀ {ids : List α} {l : List β}, ids.map f = l.map some → ids.filterMap f = l := by
  intro ids
  induction ids with
  | nil =>
    intro l h
    cases l with
    | nil => rfl
    | cons b bs => simp at h
  | cons i rest ih =>
    intro l h
    cases l with
    | nil => simp at h
    | cons b bs =>
      simp only [List.map_cons, List.cons.injEq] at h
      simp [List.filterMap_cons, h.1, ih h.2]

theorem allAspects_of_wf (s : State) (h : WF s) :
    selectAllCanvasAspectItems s = (allAspects s).map some ∧
    (allAspects s).map (fun a => a.id) = s.ids := by
  obtain ⟨l, hl1, hl2⟩ := exists_aspects_of_wf s.entities h.2 s.ids h.1
  have hall : allAspects s = l := filterMap_eq_of_map_eq hl1
  exact ⟨by rw [hall]; exact hl1, by rw [hall]; exact hl2⟩

theorem find_eq_of_nodup {l : List CanvasAspect} {a : CanvasAspect} {id : String}
    (hnd : (l.map (fun a => a.id)).Nodup) (ha : a ∈ l) (hid : a.id = id) :
    l.find? (fun p => p.id = id) = some a := by
  induction l with
  | nil => cases ha
  | cons b rest ih =>
    simp only [List.map_cons, List.nodup_cons] at hnd
    rcases List.mem_cons.mp ha with rfl | hmem
    · simp [List.find?_cons, hid]
    · by_cases hb : b.id = id
      · exfalso
        refine hnd.1 ?_
        rw [hb, ← hid]
        exact List.mem_map_of_mem _ hmem
      · simp [List.find?_cons, hb, ih hnd.2 hmem]

/-! ## Claims about the selector layer -/

/-- C7: for every well-formed store state, the all-aspects view
(`selectAllCanvasAspectItems`) is an ordered sequence of canvas aspects
whose order is the EntityStore insertion order of their ids: the view
is some list of aspects (no `undefined` holes) and mapping each aspect
to its id reproduces the `ids` array exactly. -/
theorem allAspectsViewFollowsInsertionOrder (s : State) (h : WF s) :
    ∃ l : List CanvasAspect, selectAllCanvasAspectItems s = l.map some ∧
      l.map (fun a => a.id) = s.ids :=
  exists_aspects_of_wf s.entities h.2 s.ids h.1

/-- A small well-formed store used to instantiate the hypotheses of the
selector theorems. -/
def sampleState : State :=
  { ids := ["a", "b"],
    entities := [("a", ⟨"a", some 1, "PA"⟩), ("b", ⟨"b", some 2, "PB"⟩)],
    addedIds := ["b"] }

/-- Witness for C7 at a concrete well-formed state. -/
theorem allAspectsViewFollowsInsertionOrderWitness :
    WF sampleState ∧
      ∃ l : List CanvasAspect,
        selectAllCanvasAspectItems sampleState = l.map some ∧
          l.map (fun a => a.id) = sampleState.ids :=
  ⟨by decide, allAspectsViewFollowsInsertionOrder sampleState (by decide)⟩

/-- C5: for every well-formed store state with duplicate-free ids and
every requested id, the by-id selector — the composition of
`selectAllCanvasAspectItems` with `selectCanvasAspectById`'s projector —
returns the aspect whose `id` field equals the requested id whenever
such an aspect is present, and an absent-marker (never an error: the
selector is a total function into `JSVal`) when none is. -/
theorem byIdSelectorFindsAspectOrAbsent (s : State) (id : String)
    (h : WF s) (hnd : s.ids.Nodup) :
    selectAllCanvasAspectItems s = (allAspects s).map some ∧
    (∀ a ∈ allAspects s, a.id = id →
      selectCanvasAspectById id (some (allAspects s)) = JSVal.value a) ∧
    ((∀ a ∈ allAspects s, a.id ≠ id) →
      selectCanvasAspectById id (some (allAspects s)) = JSVal.undef) := by
  obtain ⟨hmap, hids⟩ := allAspects_of_wf s h
  refine ⟨hmap, ?_, ?_⟩
  · intro a ha hid
    have hnd2 : ((allAspects s).map (fun a => a.id)).Nodup := by
      rw [hids]; exact hnd
    simp [selectCanvasAspectById, find_eq_of_nodup hnd2 ha hid]
  · intro hno
    have hfind : (allAspects s).find? (fun p => p.id = id) = none :=
      List.find?_eq_none.mpr (fun x hx => by simp [hno x hx])
    simp [selectCanvasAspectById, hfind]

/-- Witness for C5 at a concrete state: the present id is found, and a
missing id yields the absent marker. -/
theorem byIdSelectorFindsAspectOrAbsentWitness :
    WF sampleState ∧ sampleState.ids.Nodup ∧
      ((∀ a ∈ allAspects sampleState, a.id ≠ "zz") →
        selectCanvasAspectById "zz" (some (allAspects sampleState)) = JSVal.undef) :=
  ⟨by decide, by decide,
    (byIdSelectorFindsAspectOrAbsent sampleState "zz" (by decide) (by decide)).2.2⟩

/-- A store state on which the code's pending view and the spec's
pending view disagree: `addedIds` lists the pending ids in the opposite
order to the `ids` insertion order. -/
def reorderedState : State :=
  { ids := ["a", "b"],
    entities := [("a", ⟨"a", some 1, "PA"⟩), ("b", ⟨"b", some 2, "PB"⟩)],
    addedIds := ["b", "a"] }

/-- C1, counterexample: `selectAddedCanvasAspects` maps over `addedIds`
in `addedIds` order, so it is not the subsequence of the all-aspects
view in all-aspects order whenever the two orders differ. -/
theorem pendingViewIsNotAllAspectsSubsequence :
    selectAddedCanvasAspects reorderedState ≠ pendingAspectsSpec reorderedState := by
  decide

/-- C1, amended: for every store state whose PendingSet is
duplicate-free, whose ids are duplicate-free, and whose PendingSet is
contained in the ids array, the pending view contains exactly the
aspects whose id is in PendingSet — but ordered by `addedIds`, i.e. it
is a permutation of the subsequence of the all-aspects view rather than
that subsequence itself. -/
theorem pendingViewPermutesAllAspectsSubsequence (s : State)
    (h1 : s.addedIds.Nodup) (h2 : s.ids.Nodup)
    (h3 : ∀ i ∈ s.addedIds, i ∈ s.ids) :
    (selectAddedCanvasAspects s).Perm (pendingAspectsSpec s) := by
  unfold selectAddedCanvasAspects pendingAspectsSpec
  refine List.Perm.map _ ?_
  refine (List.perm_ext_iff_of_nodup h1 (h2.filter _)).mpr ?_
  intro x
  simp only [List.mem_filter, decide_eq_true_eq]
  exact ⟨fun hx => ⟨h3 x hx, hx⟩, fun hx => hx.2⟩

/-- Witness for the amended C1 at the reordered concrete state. -/
theorem pendingViewPermutesAllAspectsSubsequenceWitness :
    (reorderedState.addedIds.Nodup ∧ reorderedState.ids.Nodup ∧
      ∀ i ∈ reorderedState.addedIds, i ∈ reorderedState.ids) ∧
    (selectAddedCanvasAspects reorderedState).Perm (pendingAspectsSpec reorderedState) :=
  ⟨⟨by decide, by decide, by decide⟩,
    pendingViewPermutesAllAspectsSubsequence reorderedState
      (by decide) (by decide) (by decide)⟩

/-- C9: the absent-marker of `selectCanvasAspectById` is not a single
value — a falsy all-aspects array yields `null` while a present array
with no matching aspect yields `undefined` (the `Array.find` result),
and the two markers are distinct values. -/
theorem absentMarkerIsTwoDistinctValues :
    (∀ id : String, selectCanvasAspectById id none = JSVal.jsNull) ∧
    (∀ (id : String) (l : List CanvasAspect), (∀ a ∈ l, a.id ≠ id) →
      selectCanvasAspectById id (some l) = JSVal.undef) ∧
    (JSVal.jsNull ≠ (JSVal.undef : JSVal CanvasAspect)) := by
  refine ⟨fun id => rfl, ?_, by decide⟩
  intro id l hno
  have hfind : l.find? (fun p => p.id = id) = none :=
    List.find?_eq_none.mpr (fun x hx => by simp [hno x hx])
  simp [selectCanvasAspectById, hfind]

/-- Witness for C9: both markers at concrete inputs. -/
theorem absentMarkerIsTwoDistinctValuesWitness :
    selectCanvasAspectById "x" none = JSVal.jsNull ∧
      selectCanvasAspectById "x" (some []) = JSVal.undef :=
  ⟨absentMarkerIsTwoDistinctValues.1 "x",
    absentMarkerIsTwoDistinctValues.2.1 "x" [] (by simp)⟩

/-- A state violating `PendingSet ⊆ EntityStore.ids`: `addedIds` holds
an id with no entity. -/
def ghostState : State := { ids := [], entities := [], addedIds := ["ghost"] }

/-- C10: `selectAddedCanvasAspects` indexes `entities` with each id of
`addedIds` without a guard — under the precondition that every pending
id has an entity, every element of the result is a defined aspect; on a
state violating the precondition the result contains an undefined
element at the missing id's position. -/
theorem pendingViewDefinedIffPendingIdsPresent :
    (∀ s : State, (∀ i ∈ s.addedIds, (lookupId i s.entities).isSome) →
      ∀ x ∈ selectAddedCanvasAspects s, x.isSome) ∧
    selectAddedCanvasAspects ghostState = [none] := by
  constructor
  · intro s hpre x hx
    obtain ⟨i, hi, rfl⟩ := List.mem_map.mp hx
    exact hpre i hi
  · rfl

/-- Witness for C10's guarded half at a concrete state satisfying the
precondition. -/
theorem pendingViewDefinedIffPendingIdsPresentWitness :
    (∀ i ∈ sampleState.addedIds, (lookupId i sampleState.entities).isSome) ∧
      ∀ x ∈ selectAddedCanvasAspects sampleState, x.isSome :=
  ⟨by decide, pendingViewDefinedIffPendingIdsPresent.1 sampleState (by decide)⟩

/-! ## C8: selectors read but never write the state -/

/-- Reading `state.ids`: returns the field and passes the state on. -/
def readIds (s : State) : List String × State := (s.ids, s)

/-- Reading `state.entities`. -/
def readEntities (s : State) : List (String × CanvasAspect) × State := (s.entities, s)

/-- Reading `state.addedIds`. -/
def readAddedIds (s : State) : List String × State := (s.addedIds, s)

/-- `selectAllCanvasAspectItems` with the state threaded through every
access the selector makes, so that the resulting state is explicit. -/
def runSelectAllCanvasAspectItems (s : State) : List (Option CanvasAspect) × State :=
  let r1 := readIds s
  let r2 := readEntities r1.2
  (r1.1.map (fun i => lookupId i r2.1), r2.2)

/-- The composed by-id selector with the state threaded through. -/
def runSelectCanvasAspectById (id : String) (s : State) : JSVal CanvasAspect × State :=
  let r1 := runSelectAllCanvasAspectItems s
  (selectCanvasAspectById id (some (r1.1.filterMap (fun x => x))), r1.2)

/-- `selectAddedCanvasAspects` with the state threaded through. -/
def runSelectAddedCanvasAspects (s : State) : List (Option CanvasAspect) × State :=
  let r1 := readAddedIds s
  let r2 := readEntities r1.2
  (r1.1.map (fun i => lookupId i r2.1), r2.2)

/-- C8: evaluating any of the three selectors leaves both the
EntityStore fields and PendingSet unchanged — the state each threaded
selector hands back is exactly the input state, and the values computed
agree with the pure selector functions. -/
theorem selectorsNeverMutateState (s : State) (id : String) :
    (runSelectAllCanvasAspectItems s).2 = s ∧
    (runSelectCanvasAspectById id s).2 = s ∧
    (runSelectAddedCanvasAspects s).2 = s ∧
    (runSelectAllCanvasAspectItems s).1 = selectAllCanvasAspectItems s ∧
    (runSelectAddedCanvasAspects s).1 = selectAddedCanvasAspects s :=
  ⟨rfl, rfl, rfl, rfl, rfl⟩

/-! ## Claims about the reconciliation engine -/

/-- The spec's PendingSet invariant together with the entity-adapter
companion fact it rests on: every pending id is in the order array, and
every dictionary key is in the order array. -/
def StoreInv (st : State) : Prop :=
  (∀ i ∈ st.addedIds, i ∈ st.ids) ∧ (∀ q ∈ st.entities, q.1 ∈ st.ids)

instance (st : State) : Decidable (StoreInv st) := by
  unfold StoreInv; infer_instance

theorem upsertAspect_addedIds (a : CanvasAspect) (st : State) :
    (upsertAspect a st).addedIds = st.addedIds := by
  unfold upsertAspect
  split_ifs <;> rfl

theorem storeInv_applyEvent (s : Session) (e : Event) (h : StoreInv s.store) :
    StoreInv (applyEvent e s).store := by
  obtain ⟨h1, h2⟩ := h
  cases e with
  | localCreate t p =>
    simp only [applyEvent]
    refine ⟨?_, ?_⟩
    · intro i hi
      rw [upsertAspect_addedIds] at hi
      unfold addPending at hi
      split_ifs at hi with hmem
      · exact mem_ids_upsert_mono (h1 i hi)
      · rcases List.mem_append.mp hi with hl | hr
        · exact mem_ids_upsert_mono (h1 i hl)
        · have hit : i = t := by simpa using hr
          subst hit
          exact mem_ids_upsert_self h2
    · intro q hq
      rcases mem_upsert_entities hq with rfl | ⟨hq1, _⟩
      · exact mem_ids_upsert_self h2
      · exact mem_ids_upsert_mono (h2 q hq1)
  | localDelete i =>
    simp only [applyEvent, removeAspect]
    refine ⟨?_, ?_⟩
    · intro j hj
      unfold dropPending at hj
      simp only [List.mem_filter, decide_eq_true_eq] at hj ⊢
      exact ⟨h1 j hj.1, hj.2⟩
    · intro q hq
      simp only [List.mem_filter, decide_eq_true_eq] at hq ⊢
      exact ⟨h2 q hq.1, hq.2⟩
  | ack c a =>
    simp only [applyEvent]
    split_ifs with hc
    · refine ⟨?_, ?_⟩
      · intro j hj
        unfold dropPending at hj
        simp only [List.mem_filter, decide_eq_true_eq] at hj
        refine List.mem_map.mpr ⟨j, h1 j hj.1, ?_⟩
        rw [if_neg hj.2]
      · intro q hq
        rcases mem_replaceEntry hq with rfl | ⟨hq1, hq2⟩
        · rw [lookupId_isSome_iff] at hc
          obtain ⟨q0, hq0, hq01⟩ := List.mem_map.mp hc
          refine List.mem_map.mpr ⟨c, hq01 ▸ h2 q0 hq0, ?_⟩
          rw [if_pos rfl]
        · refine List.mem_map.mpr ⟨q.1, h2 q hq1, ?_⟩
          rw [if_neg hq2]
    · refine ⟨?_, h2⟩
      intro j hj
      unfold dropPending at hj
      simp only [List.mem_filter, decide_eq_true_eq] at hj
      exact h1 j hj.1
  | reject c =>
    simp only [applyEvent]
    rcases hcur : lookupId c s.store.entities with _ | cur
    · simp only [hcur]
      refine ⟨?_, h2⟩
      intro j hj
      unfold dropPending at hj
      simp only [List.mem_filter, decide_eq_true_eq] at hj
      exact h1 j hj.1
    · simp only [hcur]
      split_ifs with hrev
      · simp only [removeAspect]
        refine ⟨?_, ?_⟩
        · intro j hj
          unfold dropPending at hj
          simp only [List.mem_filter, decide_eq_true_eq] at hj ⊢
          exact ⟨h1 j hj.1, hj.2⟩
        · intro q hq
          simp only [List.mem_filter, decide_eq_true_eq] at hq ⊢
          exact ⟨h2 q hq.1, hq.2⟩
      · rcases hb : lookupId c s.base with _ | b
        · simp only [hb]
          refine ⟨?_, h2⟩
          intro j hj
          unfold dropPending at hj
          simp only [List.mem_filter, decide_eq_true_eq] at hj
          exact h1 j hj.1
        · simp only [hb]
          refine ⟨?_, ?_⟩
          · intro j hj
            unfold dropPending at hj
            simp only [List.mem_filter, decide_eq_true_eq] at hj
            exact h1 j hj.1
          · intro q hq
            rcases mem_replaceEntry hq with rfl | ⟨hq1, _⟩
            · have : (lookupId c s.store.entities).isSome := by rw [hcur]; rfl
              rw [lookupId_isSome_iff] at this
              obtain ⟨q0, hq0, hq01⟩ := List.mem_map.mp this
              exact hq01 ▸ h2 q0 hq0
            · exact h2 q hq1
  | remoteUpsert a =>
    simp only [applyEvent]
    split_ifs with hpend hnew
    · exact ⟨h1, h2⟩
    · refine ⟨?_, ?_⟩
      · intro j hj
        rw [upsertAspect_addedIds] at hj
        exact mem_ids_upsert_mono (h1 j hj)
      · intro q hq
        rcases mem_upsert_entities hq with rfl | ⟨hq1, _⟩
        · exact mem_ids_upsert_self h2
        · exact mem_ids_upsert_mono (h2 q hq1)
    · exact ⟨h1, h2⟩
  | remoteDelete i =>
    simp only [applyEvent]
    split_ifs with hpend
    · exact ⟨h1, h2⟩
    · simp only [removeAspect]
      refine ⟨?_, ?_⟩
      · intro j hj
        simp only [List.mem_filter, decide_eq_true_eq]
        refine ⟨h1 j hj, ?_⟩
        intro hji
        exact hpend (hji ▸ hj)
      · intro q hq
        simp only [List.mem_filter, decide_eq_true_eq] at hq ⊢
        exact ⟨h2 q hq.1, hq.2⟩

theorem storeInv_runEvents :
    ∀ (evs : List Event) (init : Session), StoreInv init.store →
      StoreInv (runEvents evs init).store := by
  intro evs
  induction evs with
  | nil => exact fun init h => h
  | cons e rest ih => exact fun init h => ih _ (storeInv_applyEvent init e h)

/-- C6: in every session state reachable from a state satisfying the
PendingSet invariant, `PendingSet ⊆ EntityStore.ids` — the inclusion is
preserved by every operation (local create, local delete, Ack, Reject,
RemoteChange upsert and delete) and hence by every event sequence. -/
theorem pendingSetAlwaysSubsetOfIds (init : Session) (evs : List Event)
    (h : StoreInv init.store) :
    StoreInv (runEvents evs init).store ∧
    ∀ i ∈ (runEvents evs init).store.addedIds, i ∈ (runEvents evs init).store.ids := by
  have hrun := storeInv_runEvents evs init h
  exact ⟨hrun, hrun.1⟩

/-- A concrete event sequence exercising create, remote delete and Ack. -/
def sampleEvents : List Event :=
  [Event.localCreate "t" "P",
   Event.remoteDelete "b",
   Event.ack "t" ⟨"c1", some 1, "P"⟩]

/-- Witness for C6 on a concrete initial session and event sequence. -/
theorem pendingSetAlwaysSubsetOfIdsWitness :
    StoreInv sampleState ∧
    ∀ i ∈ (runEvents sampleEvents ⟨sampleState, []⟩).store.addedIds,
      i ∈ (runEvents sampleEvents ⟨sampleState, []⟩).store.ids :=
  ⟨by decide, (pendingSetAlwaysSubsetOfIds ⟨sampleState, []⟩ sampleEvents (by decide)).2⟩

/-! ## C2: creates followed by matching Acks -/

/-- One local create together with its matching Ack payload. -/
structure CreateAck where
  tmpId : String
  payload : String
  canonical : CanvasAspect
deriving DecidableEq, Repr

/-- The event sequence "each local create immediately followed by its
matching Ack". -/
def createAckEvents : List CreateAck → List Event
  | [] => []
  | ca :: rest =>
    Event.localCreate ca.tmpId ca.payload :: Event.ack ca.tmpId ca.canonical ::
      createAckEvents rest

/-- "EntityStore contains only canonical ids and PendingSet is empty":
no id is pending, every stored aspect carries a backend revision (the
spec's marker of a canonical, confirmed aspect), and every id in the
order array resolves to an entity. -/
def CanonState (st : State) : Prop :=
  st.addedIds = [] ∧
  (∀ q ∈ st.entities, q.2.revision.isSome) ∧
  (∀ i ∈ st.ids, (lookupId i st.entities).isSome)

instance (st : State) : Decidable (CanonState st) := by
  unfold CanonState; infer_instance

theorem mem_ids_upsert_elim {j : String} {a0 : CanvasAspect} {st : State}
    (hj : j ∈ (upsertAspect a0 st).ids) : j ∈ st.ids ∨ j = a0.id := by
  unfold upsertAspect at hj
  split_ifs at hj
  · exact Or.inl hj
  · rcases List.mem_append.mp hj with hl | hr
    · exact Or.inl hl
    · exact Or.inr (by simpa using hr)

theorem lookup_isSome_upsert {j : String} {a0 : CanvasAspect} {st : State}
    (hwf : ∀ i ∈ st.ids, (lookupId i st.entities).isSome)
    (hj : j ∈ (upsertAspect a0 st).ids) :
    (lookupId j (upsertAspect a0 st).entities).isSome := by
  by_cases hja : j = a0.id
  · rw [hja, lookupId_upsert_self]
    rfl
  · rw [lookupId_upsert_other hja]
    rcases mem_ids_upsert_elim hj with hl | hr
    · exact hwf j hl
    · exact absurd hr hja

theorem canonState_step (s : Session) (t p : String) (a : CanvasAspect)
    (ha : a.revision.isSome) (h : CanonState s.store) :
    CanonState (applyEvent (Event.ack t a) (applyEvent (Event.localCreate t p) s)).store := by
  obtain ⟨h1, h2, h3⟩ := h
  have hup : (lookupId t (upsertAspect ⟨t, none, p⟩ s.store).entities).isSome := by
    rw [lookupId_upsert_self ⟨t, none, p⟩ s.store]
    rfl
  simp only [applyEvent, upsertAspect_addedIds, h1]
  rw [if_pos hup]
  refine ⟨?_, ?_, ?_⟩
  · simp [addPending, dropPending]
  · intro q hq
    rcases mem_replaceEntry hq with rfl | ⟨hq1, hq2⟩
    · exact ha
    · rcases mem_upsert_entities hq1 with rfl | ⟨hq3, _⟩
      · exact absurd rfl hq2
      · exact h2 q hq3
  · intro i hi
    simp only [List.mem_map] at hi
    obtain ⟨j, hj, hji⟩ := hi
    by_cases hjt : j = t
    · rw [if_pos hjt] at hji
      subst hji
      exact lookupId_replaceEntry_rekey a hup
    · rw [if_neg hjt] at hji
      subst hji
      by_cases hja : j = a.id
      · rw [hja]
        exact lookupId_replaceEntry_rekey a hup
      · rw [lookupId_replaceEntry_other a _ hjt hja]
        exact lookup_isSome_upsert h3 hj

theorem canonState_runCreateAcks :
    ∀ (l : List CreateAck) (init : Session), CanonState init.store →
      (∀ ca ∈ l, ca.canonical.revision.isSome) →
      CanonState (runEvents (createAckEvents l) init).store := by
  intro l
  induction l with
  | nil => exact fun init h _ => h
  | cons ca rest ih =>
    intro init h hl
    exact ih _ (canonState_step init ca.tmpId ca.payload ca.canonical
        (hl ca (List.mem_cons_self ca rest)) h)
      (fun x hx => hl x (List.mem_cons_of_mem _ hx))

/-- C2: for every session whose store starts with canonical entries
only and an empty PendingSet, processing any finite sequence of local
creates each immediately followed by its matching Ack (each Ack
carrying a backend revision) leaves the EntityStore with canonical
(revision-bearing) aspects only and an empty PendingSet. -/
theorem createsThenAcksEndCanonical (init : Session) (l : List CreateAck)
    (h : CanonState init.store)
    (hl : ∀ ca ∈ l, ca.canonical.revision.isSome) :
    (runEvents (createAckEvents l) init).store.addedIds = [] ∧
    ∀ i ∈ (runEvents (createAckEvents l) init).store.ids,
      ∃ a, lookupId i (runEvents (createAckEvents l) init).store.entities = some a ∧
        a.revision.isSome := by
  obtain ⟨h1, h2, h3⟩ := canonState_runCreateAcks l init h hl
  refine ⟨h1, fun i hi => ?_⟩
  obtain ⟨a, ha⟩ := Option.isSome_iff_exists.mp (h3 i hi)
  exact ⟨a, ha, h2 (i, a) (lookupId_mem ha)⟩

/-- Witness for C2: the spec's scenario — create `tmp-1` with payload
`P`, then Ack it to canonical `c-9` at revision 1, starting from the
empty session. -/
theorem createsThenAcksEndCanonicalWitness :
    (CanonState (⟨⟨[], [], []⟩, []⟩ : Session).store ∧
      ∀ ca ∈ [CreateAck.mk "tmp-1" "P" ⟨"c-9", some 1, "P"⟩],
        ca.canonical.revision.isSome) ∧
    ((runEvents (createAckEvents [CreateAck.mk "tmp-1" "P" ⟨"c-9", some 1, "P"⟩])
        ⟨⟨[], [], []⟩, []⟩).store.addedIds = [] ∧
      ∀ i ∈ (runEvents (createAckEvents [CreateAck.mk "tmp-1" "P" ⟨"c-9", some 1, "P"⟩])
          ⟨⟨[], [], []⟩, []⟩).store.ids,
        ∃ a, lookupId i (runEvents
            (createAckEvents [CreateAck.mk "tmp-1" "P" ⟨"c-9", some 1, "P"⟩])
            ⟨⟨[], [], []⟩, []⟩).store.entities = some a ∧ a.revision.isSome) :=
  ⟨⟨by decide, by decide⟩,
    createsThenAcksEndCanonical ⟨⟨[], [], []⟩, []⟩ _ (by decide) (by decide)⟩

/-! ## C3: pending edits survive every server event but their own resolution -/

/-- A server-delivered event that is not id `x`'s own resolution: any
RemoteChange (upsert or delete, to `x` or to any other id), and any Ack
or Reject correlated to a different id whose canonical aspect does not
carry `x` (the backend assigns fresh canonical ids, so a foreign Ack
never reuses a pending id). -/
def serverEventNotResolving (x : String) : Event → Bool
  | .ack c a => decide (c ≠ x) && decide (a.id ≠ x)
  | .reject c => decide (c ≠ x)
  | .remoteUpsert _ => true
  | .remoteDelete _ => true
  | .localCreate _ _ => false
  | .localDelete _ => false

/-- C3: while id `X` has a pending local edit, no RemoteChange — and no
server event other than `X`'s own Ack/Reject — changes the user-visible
entry for `X` or removes `X` from PendingSet: the pending edit can only
be resolved by its own Ack or Reject. -/
theorem pendingEditSurvivesRemoteChanges (s : Session) (X : String) (e : Event)
    (hX : X ∈ s.store.addedIds)
    (he : serverEventNotResolving X e = true) :
    lookupId X (applyEvent e s).store.entities = lookupId X s.store.entities ∧
    X ∈ (applyEvent e s).store.addedIds := by
  cases e with
  | localCreate t p => simp [serverEventNotResolving] at he
  | localDelete i => simp [serverEventNotResolving] at he
  | ack c a =>
    simp only [serverEventNotResolving, Bool.and_eq_true, decide_eq_true_eq] at he
    obtain ⟨hc, ha⟩ := he
    have hxc : X ≠ c := fun hh => hc hh.symm
    have hxa : X ≠ a.id := fun hh => ha hh.symm
    simp only [applyEvent]
    split_ifs with hsome
    · refine ⟨lookupId_replaceEntry_other a _ hxc hxa, ?_⟩
      simp only [dropPending, List.mem_filter, decide_eq_true_eq]
      exact ⟨hX, hxc⟩
    · refine ⟨rfl, ?_⟩
      simp only [dropPending, List.mem_filter, decide_eq_true_eq]
      exact ⟨hX, hxc⟩
  | reject c =>
    simp only [serverEventNotResolving, decide_eq_true_eq] at he
    have hxc : X ≠ c := fun hh => he hh.symm
    have hmem : X ∈ dropPending c s.store.addedIds := by
      simp only [dropPending, List.mem_filter, decide_eq_true_eq]
      exact ⟨hX, hxc⟩
    simp only [applyEvent]
    rcases hcur : lookupId c s.store.entities with _ | cur
    · exact ⟨rfl, hmem⟩
    · dsimp only
      split_ifs with hrev
      · simp only [removeAspect]
        exact ⟨lookupId_filter_ne s.store.entities hxc, hmem⟩
      · rcases hb : lookupId c s.base with _ | b
        · exact ⟨rfl, hmem⟩
        · exact ⟨lookupId_replaceEntry_other b _ hxc hxc, hmem⟩
  | remoteUpsert a =>
    simp only [applyEvent]
    split_ifs with hpend hnew
    · exact ⟨rfl, hX⟩
    · have hxa : X ≠ a.id := fun hh => hpend (hh ▸ hX)
      rw [upsertAspect_addedIds]
      exact ⟨lookupId_upsert_other hxa, hX⟩
    · exact ⟨rfl, hX⟩
  | remoteDelete i =>
    simp only [applyEvent]
    split_ifs with hpend
    · exact ⟨rfl, hX⟩
    · have hxi : X ≠ i := fun hh => hpend (hh ▸ hX)
      simp only [removeAspect]
      exact ⟨lookupId_filter_ne s.store.entities hxi, hX⟩

/-- A session holding a pending local edit to id `x` (base retained
from an earlier confirmed revision). -/
def pendingEditSession : Session :=
  ⟨⟨["x"], [("x", ⟨"x", some 1, "edited-locally"⟩)], ["x"]⟩,
   [("x", ⟨"x", some 1, "confirmed"⟩)]⟩

/-- Witness for C3: a racing RemoteChange to `x` itself leaves the
visible pending edit and the PendingSet membership intact. -/
theorem pendingEditSurvivesRemoteChangesWitness :
    ("x" ∈ pendingEditSession.store.addedIds ∧
      serverEventNotResolving "x" (Event.remoteUpsert ⟨"x", some 5, "remote"⟩) = true) ∧
    (lookupId "x" (applyEvent (Event.remoteUpsert ⟨"x", some 5, "remote"⟩)
        pendingEditSession).store.entities =
      lookupId "x" pendingEditSession.store.entities ∧
    "x" ∈ (applyEvent (Event.remoteUpsert ⟨"x", some 5, "remote"⟩)
        pendingEditSession).store.addedIds) :=
  ⟨⟨by decide, by decide⟩,
    pendingEditSurvivesRemoteChanges pendingEditSession "x"
      (Event.remoteUpsert ⟨"x", some 5, "remote"⟩) (by decide) (by decide)⟩

/-! ## C4: stale RemoteChange upserts are no-ops -/

/-- C4: a RemoteChange upsert whose revision is less than or equal to
the revision currently stored for that id leaves the store (EntityStore
ids, entities, and PendingSet alike) exactly unchanged. -/
theorem staleRemoteChangeIsNoOp (s : Session) (a cur : CanvasAspect) (r rs : Nat)
    (ha : a.revision = some r)
    (hcur : lookupId a.id s.store.entities = some cur)
    (hrs : cur.revision = some rs)
    (hle : r ≤ rs) :
    (applyEvent (Event.remoteUpsert a) s).store = s.store := by
  simp only [applyEvent]
  split_ifs with hpend hnew
  · rfl
  · exfalso
    rw [hcur] at hnew
    simp [newerThan, ha, hrs] at hnew
    omega
  · rfl

/-- A session holding aspect `c-9` at revision 2, past the witness
remote event's revision 1. -/
def revTwoSession : Session :=
  ⟨⟨["c-9"], [("c-9", ⟨"c-9", some 2, "P2"⟩)], []⟩, []⟩

/-- Witness for C4: the spec's scenario — a stale RemoteChange at
revision 1 against a stored revision 2 leaves the store unchanged. -/
theorem staleRemoteChangeIsNoOpWitness :
    ((⟨"c-9", some 1, "P1"⟩ : CanvasAspect).revision = some 1 ∧
      lookupId "c-9" revTwoSession.store.entities = some ⟨"c-9", some 2, "P2"⟩ ∧
      (⟨"c-9", some 2, "P2"⟩ : CanvasAspect).revision = some 2 ∧ 1 ≤ 2) ∧
    (applyEvent (Event.remoteUpsert ⟨"c-9", some 1, "P1"⟩) revTwoSession).store =
      revTwoSession.store :=
  ⟨⟨by decide, by decide, by decide, by decide⟩,
    staleRemoteChangeIsNoOp revTwoSession ⟨"c-9", some 1, "P1"⟩ ⟨"c-9", some 2, "P2"⟩
      1 2 (by decide) (by decide) (by decide) (by decide)⟩
